import Mathlib

/-!
Shallow embedding of the reference function suite in `src/test/original.c`.

Modelling conventions:
* C `int` values are `Int`; where the behaviour under overflow matters
  (`add_numbers`, `square`) the result is reduced to the signed 32-bit range
  with an explicit `% 2 ^ 32` two's-complement wrap (`wrap32`).
* An `int *arr` plus length is a `List Int`; element reads are `l[i]?` and
  element writes are `setM`, both returning `none` on an out-of-range index,
  so an execution that in C would touch memory out of bounds is the `none`
  branch of the embedding.
* Each C `for` loop becomes a fuel-indexed recursion whose fuel is the exact
  iteration count of the loop; all the loop bounds in the source are loop
  invariant, so the count is known on entry (`len` for `sum_array`,
  `n - 1` and `n - i - 1` for `bubble_sort`, `3` for `matrix_sum`).
* A C string is a `List Char` that carries its terminator; `string_length`
  walks it from the front and returns `none` if it runs off the end without
  meeting a terminator (the undefined-behaviour case).
-/

/-- Two's-complement wrap of an unbounded integer into the signed 32-bit
range `[-2^31, 2^31)`, the value a wrapping C `int` computation produces. -/
def wrap32 (x : Int) : Int := (x + 2 ^ 31) % 2 ^ 32 - 2 ^ 31

/-- C: `int add_numbers(int a, int b) { return a + b; }` with the sum
wrapped per fixed-width signed arithmetic. -/
def add_numbers (a b : Int) : Int := wrap32 (a + b)

/-- C: `int square(int x) { int result = x * x; return result; }` with the
product wrapped per fixed-width signed arithmetic. -/
def square (x : Int) : Int := wrap32 (x * x)

/-- The loop of `sum_array`: `for (i = 0; i < len; i++) total += arr[i];`.
`fuel` is the number of iterations still to run (`len - i`). -/
def sumLoop (arr : List Int) : Nat → Nat → Int → Option Int
  | 0, _, total => some total
  | fuel + 1, i, total => do
      let x ← arr[i]?
      sumLoop arr fuel (i + 1) (total + x)

/-- C: `int sum_array(int *arr, int len)`. -/
def sum_array (arr : List Int) (len : Nat) : Option Int :=
  sumLoop arr len 0 0

/-- The loop of `string_length`: `while (s[len] != '\0') len++;`, walking the
character sequence from the front; reaching the end of the modelled sequence
without a terminator is the `none` (undefined-behaviour) branch. -/
def strlenLoop : List Char → Nat → Option Nat
  | [], _ => none
  | c :: rest, len => if c = '\x00' then some len else strlenLoop rest (len + 1)

/-- C: `int string_length(const char *s)`. -/
def string_length (s : List Char) : Option Nat :=
  strlenLoop s 0

/-- C: `int fibonacci(int n) { if (n <= 1) return n;
return fibonacci(n - 1) + fibonacci(n - 2); }`. -/
def fibonacci (n : Int) : Int :=
  if n ≤ 1 then n
  else fibonacci (n - 1) + fibonacci (n - 2)
termination_by n.toNat
decreasing_by all_goals omega

/-- A guarded store `arr[i] = v`: `none` when the index is out of range. -/
def setM (l : List Int) (i : Nat) (v : Int) : Option (List Int) :=
  if i < l.length then some (l.set i v) else none

/-- C: `void swap(int *a, int *b)` acting on two indices of one sequence:
`temp = *a; *a = *b; *b = temp;`. -/
def swap (l : List Int) (a b : Nat) : Option (List Int) := do
  let temp ← l[a]?
  let vb ← l[b]?
  let l1 ← setM l a vb
  setM l1 b temp

/-- The inner loop of `bubble_sort`:
`for (j = 0; j < n - i - 1; j++) if (arr[j] > arr[j+1]) swap(...);`.
`fuel` is the remaining iteration count `n - i - 1 - j`. -/
def bubbleInner : List Int → Nat → Nat → Option (List Int)
  | arr, 0, _ => some arr
  | arr, fuel + 1, j => do
      let a ← arr[j]?
      let b ← arr[j + 1]?
      let arr' ← if b < a then swap arr j (j + 1) else some arr
      bubbleInner arr' fuel (j + 1)

/-- The outer loop of `bubble_sort`: `for (i = 0; i < n - 1; i++)`.
`fuel` is the remaining iteration count `n - 1 - i`. -/
def bubbleOuter : List Int → Nat → Nat → Nat → Option (List Int)
  | arr, 0, _, _ => some arr
  | arr, fuel + 1, i, n => do
      let arr' ← bubbleInner arr (n - i - 1) 0
      bubbleOuter arr' fuel (i + 1) n

/-- C: `void bubble_sort(int *arr, int n)`. -/
def bubble_sort (arr : List Int) (n : Nat) : Option (List Int) :=
  bubbleOuter arr (n - 1) 0 n

/-- A read `matrix[i][j]` of the 3×3 matrix, `none` out of range. -/
def readMat (m : List (List Int)) (i j : Nat) : Option Int := do
  let row ← m[i]?
  row[j]?

/-- The inner loop of `matrix_sum`: `for (j = 0; j < 3; j++) sum += matrix[i][j];`. -/
def matInner (m : List (List Int)) (i : Nat) : Nat → Nat → Int → Option Int
  | 0, _, sum => some sum
  | fuel + 1, j, sum => do
      let x ← readMat m i j
      matInner m i fuel (j + 1) (sum + x)

/-- The outer loop of `matrix_sum`: `for (i = 0; i < 3; i++)`. -/
def matOuter (m : List (List Int)) : Nat → Nat → Int → Option Int
  | 0, _, sum => some sum
  | fuel + 1, i, sum => do
      let sum' ← matInner m i 3 0 sum
      matOuter m fuel (i + 1) sum'

/-- C: `int matrix_sum(int matrix[3][3])`. -/
def matrix_sum (m : List (List Int)) : Option Int :=
  matOuter m 3 0 0

/-- One full bubble pass over a list: compare and swap adjacent pairs left to
right. Pure counterpart of `bubbleInner` running over a whole segment. -/
def onePass : List Int → List Int
  | [] => []
  | [a] => [a]
  | a :: b :: t => if b < a then b :: onePass (a :: t) else a :: onePass (b :: t)

/-- `k` bubble passes with a shrinking frontier: each pass runs `onePass`,
then the settled last element is split off and the head part recursed on.
Pure counterpart of `bubbleOuter`. -/
def settle : Nat → List Int → List Int
  | 0, l => l
  | k + 1, l => settle k (onePass l).dropLast ++ (onePass l).getLast?.toList

/-! ### Basic lemmas about the embedded functions -/

/-- Unfolding equation of `fibonacci`. -/
theorem fibonacci_def (n : Int) :
    fibonacci n = if n ≤ 1 then n else fibonacci (n - 1) + fibonacci (n - 2) := by
  rw [fibonacci]

theorem fibonacci_ten : fibonacci 10 = 55 := by
  have h0 : fibonacci 0 = 0 := by rw [fibonacci_def]; norm_num
  have h1 : fibonacci 1 = 1 := by rw [fibonacci_def]; norm_num
  have h2 : fibonacci 2 = 1 := by rw [fibonacci_def]; norm_num [h0, h1]
  have h3 : fibonacci 3 = 2 := by rw [fibonacci_def]; norm_num [h1, h2]
  have h4 : fibonacci 4 = 3 := by rw [fibonacci_def]; norm_num [h2, h3]
  have h5 : fibonacci 5 = 5 := by rw [fibonacci_def]; norm_num [h3, h4]
  have h6 : fibonacci 6 = 8 := by rw [fibonacci_def]; norm_num [h4, h5]
  have h7 : fibonacci 7 = 13 := by rw [fibonacci_def]; norm_num [h5, h6]
  have h8 : fibonacci 8 = 21 := by rw [fibonacci_def]; norm_num [h6, h7]
  have h9 : fibonacci 9 = 34 := by rw [fibonacci_def]; norm_num [h7, h8]
  rw [fibonacci_def]; norm_num [h8, h9]

/-- The summation loop computes the sum of the `fuel` elements starting at
index `i`, provided they all lie inside the list. -/
theorem sumLoop_eq (arr : List Int) : ∀ (fuel i : Nat) (total : Int),
    i + fuel ≤ arr.length →
    sumLoop arr fuel i total = some (total + ((arr.drop i).take fuel).sum) := by
  intro fuel
  induction fuel with
  | zero => intro i total _; simp [sumLoop]
  | succ f ih =>
    intro i total h
    have hi : i < arr.length := by omega
    rw [sumLoop]
    rw [List.getElem?_eq_getElem hi]
    show sumLoop arr f (i + 1) (total + arr[i]) = _
    rw [ih (i + 1) (total + arr[i]) (by omega)]
    congr 1
    rw [List.drop_eq_getElem_cons hi, List.take_succ_cons, List.sum_cons]
    ring

/-- `sum_array` on a consistent length bound returns the sum of the first
`len` elements. -/
theorem sum_array_eq (arr : List Int) (len : Nat) (h : len ≤ arr.length) :
    sum_array arr len = some ((arr.take len).sum) := by
  have := sumLoop_eq arr len 0 0 (by omega)
  simpa [sum_array] using this

/-- The scanning loop of `string_length` counts the characters before the
first terminator, offset by the running count `k`. -/
theorem strlenLoop_eq : ∀ (s : List Char) (k : Nat), '\x00' ∈ s →
    strlenLoop s k = some (k + (s.takeWhile (fun c => c != '\x00')).length) := by
  intro s
  induction s with
  | nil => intro k h; simp at h
  | cons c rest ih =>
    intro k hmem
    by_cases hc : c = '\x00'
    · subst hc
      simp [strlenLoop, List.takeWhile_cons]
    · have hrest : '\x00' ∈ rest := by
        rcases List.mem_cons.mp hmem with h | h
        · exact absurd h.symm hc
        · exact h
      rw [strlenLoop]
      simp only [if_neg hc]
      rw [ih (k + 1) hrest]
      simp [List.takeWhile_cons, hc]
      omega

/-- `string_length` of a terminated sequence is the number of characters
strictly before the first terminator. -/
theorem string_length_eq (s : List Char) (h : '\x00' ∈ s) :
    string_length s = some ((s.takeWhile (fun c => c != '\x00')).length) := by
  have := strlenLoop_eq s 0 h
  simpa [string_length] using this

/-- Writing back the element already stored at an index leaves the list
unchanged. -/
theorem set_getElem_self_eq : ∀ (l : List Int) (i : Nat) (h : i < l.length),
    l.set i l[i] = l := by
  intro l
  induction l with
  | nil => intro i h; simp at h
  | cons x t ih =>
    intro i h
    cases i with
    | zero => simp
    | succ j =>
      simp only [List.set_cons_succ, List.getElem_cons_succ]
      rw [ih j (by simpa using h)]

/-- `swap` on two in-range indices stores each element at the other index. -/
theorem swap_eq (l : List Int) (a b : Nat) (ha : a < l.length) (hb : b < l.length) :
    swap l a b = some ((l.set a l[b]).set b l[a]) := by
  unfold swap setM
  rw [List.getElem?_eq_getElem ha, List.getElem?_eq_getElem hb]
  simp [ha, hb]

/-! ### List index arithmetic helpers -/

theorem getElem?_append_offset (pre l : List Int) (n : Nat) :
    (pre ++ l)[pre.length + n]? = l[n]? := by
  rw [List.getElem?_append_right (by omega)]
  congr 1
  omega

theorem set_append_offset : ∀ (pre l : List Int) (n : Nat) (v : Int),
    (pre ++ l).set (pre.length + n) v = pre ++ l.set n v := by
  intro pre
  induction pre with
  | nil => intro l n v; simp
  | cons x t ih =>
    intro l n v
    have : (x :: t).length + n = (t.length + n) + 1 := by simp; omega
    rw [this]
    simp only [List.cons_append, List.set_cons_succ]
    rw [ih]

theorem dropLast_append_getLast?toList : ∀ l : List Int,
    l.dropLast ++ l.getLast?.toList = l := by
  intro l
  induction l with
  | nil => rfl
  | cons x t ih =>
    cases t with
    | nil => rfl
    | cons y t' =>
      rw [List.getLast?_cons_cons,
        show (x :: y :: t').dropLast = x :: (y :: t').dropLast from rfl]
      simpa using ih

theorem drop_length_sub_one : ∀ l : List Int,
    l.drop (l.length - 1) = l.getLast?.toList := by
  intro l
  induction l with
  | nil => rfl
  | cons x t ih =>
    cases t with
    | nil => rfl
    | cons y t' =>
      rw [List.getLast?_cons_cons]
      have h1 : (x :: y :: t').length - 1 = ((y :: t').length - 1) + 1 := by
        simp
      rw [h1, List.drop_succ_cons, ih]

/-! ### The pure bubble pass: permutation, length, maximum at the end -/

theorem onePass_perm : ∀ l : List Int, (onePass l).Perm l := by
  intro l
  induction l using onePass.induct with
  | case1 => simp [onePass]
  | case2 a => simp [onePass]
  | case3 a b t h ih =>
    rw [onePass, if_pos h]
    exact (ih.cons b).trans (List.Perm.swap a b t)
  | case4 a b t h ih =>
    rw [onePass, if_neg h]
    exact ih.cons a

theorem onePass_length (l : List Int) : (onePass l).length = l.length :=
  (onePass_perm l).length_eq

/-- After one bubble pass over a nonempty list, the last element is an upper
bound of all the elements. -/
theorem onePass_getLast?_max : ∀ l : List Int, l ≠ [] →
    ∃ m, (onePass l).getLast? = some m ∧ ∀ x ∈ l, x ≤ m := by
  intro l
  induction l using onePass.induct with
  | case1 => intro h; exact absurd rfl h
  | case2 a =>
    intro _
    exact ⟨a, by simp [onePass], by simp⟩
  | case3 a b t h ih =>
    intro _
    obtain ⟨m, hm, hbound⟩ := ih (by simp)
    refine ⟨m, ?_, ?_⟩
    · rw [onePass, if_pos h]
      have hne : onePass (a :: t) ≠ [] := by
        intro hcontra
        have := onePass_length (a :: t)
        rw [hcontra] at this
        simp at this
      obtain ⟨c, L', hL⟩ := List.exists_cons_of_ne_nil hne
      rw [hL] at hm ⊢
      rw [List.getLast?_cons_cons]
      exact hm
    · intro x hx
      rcases List.mem_cons.mp hx with rfl | hx'
      · exact hbound x (by simp)
      · rcases List.mem_cons.mp hx' with rfl | hx''
        · exact le_of_lt (lt_of_lt_of_le h (hbound a (by simp)))
        · exact hbound x (by simp [hx''])
  | case4 a b t h ih =>
    intro _
    obtain ⟨m, hm, hbound⟩ := ih (by simp)
    refine ⟨m, ?_, ?_⟩
    · rw [onePass, if_neg h]
      have hne : onePass (b :: t) ≠ [] := by
        intro hcontra
        have := onePass_length (b :: t)
        rw [hcontra] at this
        simp at this
      obtain ⟨c, L', hL⟩ := List.exists_cons_of_ne_nil hne
      rw [hL] at hm ⊢
      rw [List.getLast?_cons_cons]
      exact hm
    · intro x hx
      rcases List.mem_cons.mp hx with rfl | hx'
      · exact le_trans (not_lt.mp h) (hbound b (by simp))
      · rcases List.mem_cons.mp hx' with rfl | hx''
        · exact hbound x (by simp)
        · exact hbound x (by simp [hx''])

/-! ### The pure outer recursion `settle`: permutation and sortedness -/

theorem settle_perm : ∀ (k : Nat) (l : List Int), (settle k l).Perm l := by
  intro k
  induction k with
  | zero => intro l; rw [settle]
  | succ k ih =>
    intro l
    rw [settle]
    have h1 : (settle k (onePass l).dropLast ++ (onePass l).getLast?.toList).Perm
        ((onePass l).dropLast ++ (onePass l).getLast?.toList) :=
      (ih (onePass l).dropLast).append_right _
    rw [dropLast_append_getLast?toList] at h1
    exact h1.trans (onePass_perm l)

theorem settle_length (k : Nat) (l : List Int) : (settle k l).length = l.length :=
  (settle_perm k l).length_eq

/-- `l.length - 1` passes of the shrinking bubble recursion sort `l`. -/
theorem settle_sorted : ∀ (n : Nat) (l : List Int), l.length = n →
    List.Sorted (· ≤ ·) (settle (n - 1) l) := by
  intro n
  induction n using Nat.strong_induction_on with
  | _ n ih =>
    intro l hl
    cases n with
    | zero =>
      have : l = [] := List.length_eq_zero.mp hl
      subst this
      simp [settle]
    | succ n1 =>
      cases n1 with
      | zero =>
        obtain ⟨a, rfl⟩ := List.length_eq_one.mp hl
        simp [settle]
      | succ m =>
        have hne : l ≠ [] := by intro h; subst h; simp at hl
        obtain ⟨g, hg, hbound⟩ := onePass_getLast?_max l hne
        have hLlen : (onePass l).length = m + 2 := by rw [onePass_length, hl]
        have hdrop_len : (onePass l).dropLast.length = m + 1 := by
          rw [List.length_dropLast, hLlen]
          omega
        show List.Sorted (· ≤ ·) (settle (m + 1) l)
        rw [settle, hg]
        apply List.pairwise_append.mpr
        refine ⟨?_, by simp, ?_⟩
        · have := ih (m + 1) (by omega) (onePass l).dropLast hdrop_len
          simpa using this
        · intro x hx y hy
          simp only [Option.toList_some, List.mem_singleton] at hy
          subst hy
          have hx1 : x ∈ (onePass l).dropLast :=
            ((settle_perm m _).mem_iff).mp hx
          have hx2 : x ∈ onePass l := (List.dropLast_sublist _).subset hx1
          have hx3 : x ∈ l := ((onePass_perm l).mem_iff).mp hx2
          exact hbound x hx3

/-! ### Relating the index-based loops to the pure recursions -/

/-- `swap` of two adjacent in-range cells exchanges them in place. -/
theorem swap_adj_append (pre rest : List Int) (a b : Int) :
    swap (pre ++ a :: b :: rest) pre.length (pre.length + 1) =
      some (pre ++ b :: a :: rest) := by
  have ha : pre.length < (pre ++ a :: b :: rest).length := by simp
  have hb : pre.length + 1 < (pre ++ a :: b :: rest).length := by simp
  have h0 : (pre ++ a :: b :: rest)[pre.length]? = some a := by
    have := getElem?_append_offset pre (a :: b :: rest) 0
    simpa using this
  have h1 : (pre ++ a :: b :: rest)[pre.length + 1]? = some b := by
    have := getElem?_append_offset pre (a :: b :: rest) 1
    simpa using this
  have e0 : (pre ++ a :: b :: rest)[pre.length] = a := by
    have h' := List.getElem?_eq_getElem ha
    rw [h0] at h'
    exact (Option.some.inj h').symm
  have e1 : (pre ++ a :: b :: rest)[pre.length + 1] = b := by
    have h' := List.getElem?_eq_getElem hb
    rw [h1] at h'
    exact (Option.some.inj h').symm
  rw [swap_eq _ _ _ ha hb, e0, e1]
  congr 1
  have s0 : (pre ++ a :: b :: rest).set pre.length b = pre ++ b :: b :: rest := by
    have h' := set_append_offset pre (a :: b :: rest) 0 b
    rw [Nat.add_zero] at h'
    rw [h', List.set_cons_zero]
  rw [s0]
  have h'' := set_append_offset pre (b :: b :: rest) 1 a
  rw [h'']
  rfl

/-- The inner bubble loop, run over the whole segment `seg` sitting between
an untouched prefix and an untouched suffix, performs exactly one pure
bubble pass over `seg`. -/
theorem bubbleInner_spec : ∀ seg : List Int, seg ≠ [] → ∀ pre suf : List Int,
    bubbleInner (pre ++ seg ++ suf) (seg.length - 1) pre.length =
      some (pre ++ onePass seg ++ suf) := by
  intro seg
  induction seg using onePass.induct with
  | case1 => intro h; exact absurd rfl h
  | case2 a =>
    intro _ pre suf
    show bubbleInner (pre ++ [a] ++ suf) 0 pre.length = _
    rw [bubbleInner, onePass]
  | case3 a b t hlt ih =>
    intro _ pre suf
    have harr : pre ++ (a :: b :: t) ++ suf = pre ++ a :: b :: (t ++ suf) := by simp
    have hfuel : (a :: b :: t).length - 1 = t.length + 1 := by simp
    rw [harr, hfuel, bubbleInner]
    have h0 : (pre ++ a :: b :: (t ++ suf))[pre.length]? = some a := by
      have := getElem?_append_offset pre (a :: b :: (t ++ suf)) 0
      simpa using this
    have h1 : (pre ++ a :: b :: (t ++ suf))[pre.length + 1]? = some b := by
      have := getElem?_append_offset pre (a :: b :: (t ++ suf)) 1
      simpa using this
    rw [h0, h1]
    have hsw := swap_adj_append pre (t ++ suf) a b
    have hrec := ih (by simp) (pre ++ [b]) suf
    have hlen : (pre ++ [b]).length = pre.length + 1 := by simp
    have harr2 : (pre ++ [b]) ++ (a :: t) ++ suf = pre ++ b :: a :: (t ++ suf) := by simp
    have hfuel2 : (a :: t).length - 1 = t.length := by simp
    rw [hlen, harr2, hfuel2] at hrec
    simp [hlt, hsw, hrec, onePass]
  | case4 a b t hge ih =>
    intro _ pre suf
    have harr : pre ++ (a :: b :: t) ++ suf = pre ++ a :: b :: (t ++ suf) := by simp
    have hfuel : (a :: b :: t).length - 1 = t.length + 1 := by simp
    rw [harr, hfuel, bubbleInner]
    have h0 : (pre ++ a :: b :: (t ++ suf))[pre.length]? = some a := by
      have := getElem?_append_offset pre (a :: b :: (t ++ suf)) 0
      simpa using this
    have h1 : (pre ++ a :: b :: (t ++ suf))[pre.length + 1]? = some b := by
      have := getElem?_append_offset pre (a :: b :: (t ++ suf)) 1
      simpa using this
    rw [h0, h1]
    have hrec := ih (by simp) (pre ++ [a]) suf
    have hlen : (pre ++ [a]).length = pre.length + 1 := by simp
    have harr2 : (pre ++ [a]) ++ (b :: t) ++ suf = pre ++ a :: b :: (t ++ suf) := by simp
    have hfuel2 : (b :: t).length - 1 = t.length := by simp
    rw [hlen, harr2, hfuel2] at hrec
    simp [hge, hrec, onePass]

/-- The outer bubble loop with fuel `n - 1 - i` computes `settle` on the
first `n - i` cells and fixes the rest. -/
theorem bubbleOuter_spec : ∀ (k : Nat) (arr : List Int) (i n : Nat),
    n ≤ arr.length → n - 1 - i = k →
    bubbleOuter arr k i n =
      some (settle k (arr.take (n - i)) ++ arr.drop (n - i)) := by
  intro k
  induction k with
  | zero =>
    intro arr i n _ _
    rw [bubbleOuter, settle, List.take_append_drop]
  | succ k ih =>
    intro arr i n hn hk
    have h2 : 2 ≤ n - i := by omega
    have hseglen : (arr.take (n - i)).length = n - i := by
      rw [List.length_take]
      omega
    have hsegne : arr.take (n - i) ≠ [] := by
      intro h
      rw [h] at hseglen
      simp at hseglen
      omega
    have hinner := bubbleInner_spec (arr.take (n - i)) hsegne [] (arr.drop (n - i))
    rw [hseglen] at hinner
    simp only [List.nil_append, List.length_nil] at hinner
    rw [List.take_append_drop] at hinner
    have hLlen : (onePass (List.take (n - i) arr)).length = n - i := by
      rw [onePass_length, hseglen]
    rw [bubbleOuter, hinner]
    show bubbleOuter (onePass (List.take (n - i) arr) ++ List.drop (n - i) arr)
        k (i + 1) n = _
    have harrlen :
        n ≤ (onePass (List.take (n - i) arr) ++ List.drop (n - i) arr).length := by
      rw [List.length_append, hLlen, List.length_drop]
      omega
    rw [ih _ (i + 1) n harrlen (by omega)]
    have htake : List.take (n - (i + 1))
          (onePass (List.take (n - i) arr) ++ List.drop (n - i) arr)
        = (onePass (List.take (n - i) arr)).dropLast := by
      rw [List.take_append_of_le_length (by rw [hLlen]; omega)]
      rw [List.dropLast_eq_take, hLlen]
      congr 1
    have hdrop : List.drop (n - (i + 1))
          (onePass (List.take (n - i) arr) ++ List.drop (n - i) arr)
        = (onePass (List.take (n - i) arr)).getLast?.toList ++ List.drop (n - i) arr := by
      rw [List.drop_append_of_le_length (by rw [hLlen]; omega)]
      congr 1
      rw [← drop_length_sub_one, hLlen]
      congr 1
    rw [htake, hdrop, settle]
    rw [List.append_assoc]

/-- Main bridge: on a consistent bound `n`, the C `bubble_sort` terminates
without any out-of-range access and computes the pure shrinking-pass
recursion on the first `n` cells, fixing the cells from `n` on. -/
theorem bubble_sort_spec (arr : List Int) (n : Nat) (h : n ≤ arr.length) :
    bubble_sort arr n = some (settle (n - 1) (arr.take n) ++ arr.drop n) := by
  have := bubbleOuter_spec (n - 1) arr 0 n h (by omega)
  simpa [bubble_sort] using this


/-! ### Derived facts shared by the top-level statements -/

theorem bubble_sort_full (l : List Int) :
    bubble_sort l l.length = some (settle (l.length - 1) l) := by
  have h := bubble_sort_spec l l.length le_rfl
  rw [List.take_length, List.drop_length, List.append_nil] at h
  exact h

theorem settle_full_perm (l : List Int) : (settle (l.length - 1) l).Perm l :=
  settle_perm _ l

theorem settle_full_sorted (l : List Int) :
    List.Sorted (· ≤ ·) (settle (l.length - 1) l) :=
  settle_sorted l.length l rfl

/-- A sorted list is a fixed point of the pure bubble recursion. -/
theorem settle_sorted_fix (l : List Int) (h : List.Sorted (· ≤ ·) l) :
    settle (l.length - 1) l = l :=
  List.eq_of_perm_of_sorted (settle_full_perm l) (settle_full_sorted l) h

theorem length_eq_three {α : Type} {l : List α} (h : l.length = 3) :
    ∃ a b c, l = [a, b, c] := by
  rcases l with _ | ⟨a, _ | ⟨b, _ | ⟨c, _ | ⟨d, t⟩⟩⟩⟩
  · simp at h
  · simp at h
  · simp at h
  · exact ⟨a, b, c, rfl⟩
  · simp at h

theorem wrap32_emod (x : Int) : wrap32 x % 2 ^ 32 = x % 2 ^ 32 := by
  unfold wrap32
  have h31 : (2 : Int) ^ 31 = 2147483648 := by norm_num
  have h32 : (2 : Int) ^ 32 = 4294967296 := by norm_num
  rw [h31, h32]
  omega

theorem wrap32_range (x : Int) : -2 ^ 31 ≤ wrap32 x ∧ wrap32 x < 2 ^ 31 := by
  unfold wrap32
  have h31 : (2 : Int) ^ 31 = 2147483648 := by norm_num
  have h32 : (2 : Int) ^ 32 = 4294967296 := by norm_num
  rw [h31, h32]
  constructor <;> omega

theorem wrap32_fix (x : Int) (h1 : -2 ^ 31 ≤ x) (h2 : x < 2 ^ 31) :
    wrap32 x = x := by
  unfold wrap32
  have h31 : (2 : Int) ^ 31 = 2147483648 := by norm_num
  have h32 : (2 : Int) ^ 32 = 4294967296 := by norm_num
  rw [h31, h32]
  rw [h31] at h1 h2
  omega

/-! ## The specification claims -/

/-- Claim C1: for every list of integers, applying `bubble_sort` with `n`
equal to the list's length succeeds and produces the unique ascending
(non-decreasing) ordering of the list's multiset of elements — in
particular the output is a permutation of the input — and
`bubble_sort [5,2,8,1,9] 5` yields `[1,2,5,8,9]`. -/
theorem bubble_sort_sorts_claim_C1 :
    (∀ l : List Int, ∃ r, bubble_sort l l.length = some r ∧
      r.Perm l ∧ List.Sorted (· ≤ ·) r ∧
      ∀ r' : List Int, r'.Perm l → List.Sorted (· ≤ ·) r' → r' = r) ∧
    bubble_sort [5, 2, 8, 1, 9] 5 = some [1, 2, 5, 8, 9] := by
  constructor
  · intro l
    refine ⟨settle (l.length - 1) l, bubble_sort_full l, settle_full_perm l,
      settle_full_sorted l, ?_⟩
    intro r' hperm hsort
    exact List.eq_of_perm_of_sorted (hperm.trans (settle_full_perm l).symm)
      hsort (settle_full_sorted l)
  · rfl

theorem bubble_sort_sorts_claim_C1_witness :
    ∃ r, bubble_sort [3, 1, 2] 3 = some r ∧ r.Perm [3, 1, 2] ∧
      List.Sorted (· ≤ ·) r ∧ [1, 2, 3] = r := by
  obtain ⟨r, h1, h2, h3, h4⟩ := bubble_sort_sorts_claim_C1.1 [3, 1, 2]
  exact ⟨r, h1, h2, h3, h4 [1, 2, 3] (by decide) (by decide)⟩

/-- Claim C2: `bubble_sort` (with `n` the list's length) leaves every
already-sorted list — including the empty list — unchanged, and sorting
twice gives the same result as sorting once. -/
theorem bubble_sort_idem_claim_C2 :
    (∀ l : List Int, List.Sorted (· ≤ ·) l → bubble_sort l l.length = some l) ∧
    (∀ l : List Int,
      (bubble_sort l l.length).bind (fun r => bubble_sort r r.length) =
        bubble_sort l l.length) := by
  have hfix : ∀ l : List Int, List.Sorted (· ≤ ·) l →
      bubble_sort l l.length = some l := by
    intro l hl
    rw [bubble_sort_full l, settle_sorted_fix l hl]
  refine ⟨hfix, ?_⟩
  intro l
  rw [bubble_sort_full l]
  show bubble_sort (settle (l.length - 1) l) (settle (l.length - 1) l).length = _
  exact hfix _ (settle_full_sorted l)

theorem bubble_sort_idem_claim_C2_witness :
    bubble_sort ([] : List Int) 0 = some [] ∧
      bubble_sort [1, 2, 3] 3 = some [1, 2, 3] :=
  ⟨bubble_sort_idem_claim_C2.1 [] (by decide),
   bubble_sort_idem_claim_C2.1 [1, 2, 3] (by decide)⟩

/-- Claim C3: bounds safety — under the stated preconditions every index
used by `sum_array`, `bubble_sort` and `matrix_sum` is in range, so the
out-of-range error branch (`none`) of the total embedding is unreachable
and each call returns a value. -/
theorem bounds_safety_claim_C3 :
    (∀ (arr : List Int) (len : Nat), len ≤ arr.length →
      ∃ t, sum_array arr len = some t) ∧
    (∀ (arr : List Int) (n : Nat), n ≤ arr.length →
      ∃ r, bubble_sort arr n = some r) ∧
    (∀ m : List (List Int), m.length = 3 → (∀ row ∈ m, row.length = 3) →
      ∃ s, matrix_sum m = some s) := by
  refine ⟨?_, ?_, ?_⟩
  · intro arr len h
    exact ⟨_, sum_array_eq arr len h⟩
  · intro arr n h
    exact ⟨_, bubble_sort_spec arr n h⟩
  · intro m hm hrow
    obtain ⟨r0, r1, r2, rfl⟩ := length_eq_three hm
    obtain ⟨a0, a1, a2, h0⟩ := length_eq_three (hrow r0 (by simp))
    obtain ⟨b0, b1, b2, h1⟩ := length_eq_three (hrow r1 (by simp))
    obtain ⟨c0, c1, c2, h2⟩ := length_eq_three (hrow r2 (by simp))
    subst h0
    subst h1
    subst h2
    exact ⟨_, rfl⟩

theorem bounds_safety_claim_C3_witness :
    (∃ t, sum_array [1, 2, 3] 3 = some t) ∧
    (∃ r, bubble_sort [2, 1] 2 = some r) ∧
    (∃ s, matrix_sum [[1, 2, 3], [4, 5, 6], [7, 8, 9]] = some s) :=
  ⟨bounds_safety_claim_C3.1 [1, 2, 3] 3 (by decide),
   bounds_safety_claim_C3.2.1 [2, 1] 2 (by decide),
   bounds_safety_claim_C3.2.2 [[1, 2, 3], [4, 5, 6], [7, 8, 9]] (by decide)
     (by decide)⟩

/-- Claim C4: `fibonacci n` returns `n` whenever `n ≤ 1` (negative inputs
included, as there is no negative-input guard) and
`fibonacci (n-1) + fibonacci (n-2)` otherwise; in particular
`fibonacci 0 = 0`, `fibonacci 1 = 1` and `fibonacci 10 = 55`. -/
theorem fibonacci_claim_C4 :
    (∀ n : Int, n ≤ 1 → fibonacci n = n) ∧
    (∀ n : Int, ¬n ≤ 1 → fibonacci n = fibonacci (n - 1) + fibonacci (n - 2)) ∧
    fibonacci 0 = 0 ∧ fibonacci 1 = 1 ∧ fibonacci 10 = 55 := by
  refine ⟨?_, ?_, ?_, ?_, fibonacci_ten⟩
  · intro n h
    rw [fibonacci_def, if_pos h]
  · intro n h
    rw [fibonacci_def, if_neg h]
  · rw [fibonacci_def]
    norm_num
  · rw [fibonacci_def]
    norm_num

theorem fibonacci_claim_C4_witness :
    fibonacci (-5) = -5 ∧ fibonacci 2 = fibonacci 1 + fibonacci 0 :=
  ⟨fibonacci_claim_C4.1 (-5) (by decide), fibonacci_claim_C4.2.1 2 (by decide)⟩

/-- Claim C5: for `0 ≤ len ≤` the list's length, `sum_array` returns the
sum of the first `len` elements; it returns `0` for `len = 0`, and
`sum_array [1,2,3,4,5] 5 = 15`. -/
theorem sum_array_claim_C5 :
    (∀ (arr : List Int) (len : Nat), len ≤ arr.length →
      sum_array arr len = some ((arr.take len).sum)) ∧
    (∀ arr : List Int, sum_array arr 0 = some 0) ∧
    sum_array [1, 2, 3, 4, 5] 5 = some 15 := by
  refine ⟨sum_array_eq, ?_, rfl⟩
  intro arr
  rfl

theorem sum_array_claim_C5_witness :
    sum_array [4, 5, 6] 3 = some ((([4, 5, 6] : List Int).take 3).sum) :=
  sum_array_claim_C5.1 [4, 5, 6] 3 (by decide)

/-- Claim C6: on a character sequence containing a terminator,
`string_length` returns the number of characters strictly before the first
terminator; `string_length` of `""` (just a terminator) is `0` and of
`"hello"` is `5`. -/
theorem string_length_claim_C6 :
    (∀ s : List Char, '\x00' ∈ s →
      string_length s = some ((s.takeWhile (fun c => c != '\x00')).length)) ∧
    string_length ['\x00'] = some 0 ∧
    string_length ['h', 'e', 'l', 'l', 'o', '\x00'] = some 5 :=
  ⟨string_length_eq, rfl, rfl⟩

theorem string_length_claim_C6_witness :
    string_length ['a', '\x00'] =
      some (((['a', '\x00'] : List Char).takeWhile (fun c => c != '\x00')).length) :=
  string_length_claim_C6.1 ['a', '\x00'] (by decide)

/-- Claim C7: `swap` on two distinct in-range indices succeeds, exchanges
the two addressed values and modifies no other location. -/
theorem swap_claim_C7 : ∀ (l : List Int) (a b : Nat),
    a < l.length → b < l.length → a ≠ b →
    ∃ l', swap l a b = some l' ∧ l'.length = l.length ∧
      l'[a]? = l[b]? ∧ l'[b]? = l[a]? ∧
      ∀ k : Nat, k ≠ a → k ≠ b → l'[k]? = l[k]? := by
  intro l a b ha hb hab
  refine ⟨(l.set a l[b]).set b l[a], swap_eq l a b ha hb, by simp, ?_, ?_, ?_⟩
  · rw [List.getElem?_set_ne (Ne.symm hab), List.getElem?_set_self (by simpa using ha),
      List.getElem?_eq_getElem hb]
  · rw [List.getElem?_set_self (by simpa using hb), List.getElem?_eq_getElem ha]
  · intro k hka hkb
    rw [List.getElem?_set_ne (Ne.symm hkb), List.getElem?_set_ne (Ne.symm hka)]

theorem swap_claim_C7_witness :
    ∃ l', swap [10, 20] 0 1 = some l' ∧ l'.length = 2 ∧
      l'[0]? = ([10, 20] : List Int)[1]? ∧ l'[1]? = ([10, 20] : List Int)[0]? ∧
      ∀ k : Nat, k ≠ 0 → k ≠ 1 → l'[k]? = ([10, 20] : List Int)[k]? :=
  swap_claim_C7 [10, 20] 0 1 (by decide) (by decide) (by decide)

/-- Claim C8: `add_numbers` computes `a + b` and `square` computes `x * x`,
wrapping on overflow per two's-complement modulo `2 ^ 32` arithmetic: each
result is congruent to the exact value modulo `2 ^ 32`, lies in the signed
32-bit range, and equals the exact value whenever that value is in range;
`add_numbers 3 4 = 7`, `add_numbers (-1) 1 = 0`, `square 5 = 25`,
`square 0 = 0`. -/
theorem arith_claim_C8 :
    (∀ a b : Int, add_numbers a b % 2 ^ 32 = (a + b) % 2 ^ 32 ∧
      -2 ^ 31 ≤ add_numbers a b ∧ add_numbers a b < 2 ^ 31) ∧
    (∀ x : Int, square x % 2 ^ 32 = x * x % 2 ^ 32 ∧
      -2 ^ 31 ≤ square x ∧ square x < 2 ^ 31) ∧
    (∀ a b : Int, -2 ^ 31 ≤ a + b → a + b < 2 ^ 31 → add_numbers a b = a + b) ∧
    (∀ x : Int, -2 ^ 31 ≤ x * x → x * x < 2 ^ 31 → square x = x * x) ∧
    add_numbers 3 4 = 7 ∧ add_numbers (-1) 1 = 0 ∧
    square 5 = 25 ∧ square 0 = 0 := by
  refine ⟨?_, ?_, ?_, ?_, by decide, by decide, by decide, by decide⟩
  · intro a b
    exact ⟨wrap32_emod _, (wrap32_range _).1, (wrap32_range _).2⟩
  · intro x
    exact ⟨wrap32_emod _, (wrap32_range _).1, (wrap32_range _).2⟩
  · intro a b h1 h2
    exact wrap32_fix _ h1 h2
  · intro x h1 h2
    exact wrap32_fix _ h1 h2

theorem arith_claim_C8_witness :
    add_numbers 100 200 = 100 + 200 ∧ square 9 = 9 * 9 :=
  ⟨arith_claim_C8.2.2.1 100 200 (by norm_num) (by norm_num),
   arith_claim_C8.2.2.2.1 9 (by norm_num) (by norm_num)⟩

/-- Claim C9: frame property of `bubble_sort` — with `n ≤` the list's
length, it succeeds, sorts exactly the first `n` cells (a sorted
permutation of the original first `n` cells), leaves every cell at an
index in `[n, length)` unchanged, and for `n ≤ 1` returns the whole list
unchanged. -/
theorem bubble_frame_claim_C9 : ∀ (arr : List Int) (n : Nat), n ≤ arr.length →
    ∃ r, bubble_sort arr n = some r ∧
      r.length = arr.length ∧
      (r.take n).Perm (arr.take n) ∧
      List.Sorted (· ≤ ·) (r.take n) ∧
      (∀ k : Nat, n ≤ k → r[k]? = arr[k]?) ∧
      (n ≤ 1 → r = arr) := by
  intro arr n h
  have htl : (List.take n arr).length = n := by
    rw [List.length_take]
    omega
  have hsl : (settle (n - 1) (List.take n arr)).length = n := by
    rw [settle_length, htl]
  refine ⟨settle (n - 1) (List.take n arr) ++ List.drop n arr,
    bubble_sort_spec arr n h, ?_, ?_, ?_, ?_, ?_⟩
  · rw [List.length_append, hsl, List.length_drop]
    omega
  · rw [List.take_left' hsl]
    exact settle_perm (n - 1) (List.take n arr)
  · rw [List.take_left' hsl]
    have h2 := settle_sorted (List.take n arr).length (List.take n arr) rfl
    rw [htl] at h2
    exact h2
  · intro k hk
    rw [List.getElem?_append_right (by rw [hsl]; omega)]
    rw [hsl, List.getElem?_drop]
    congr 1
    omega
  · intro hn1
    interval_cases n
    · simp [settle]
    · show settle 0 (List.take 1 arr) ++ List.drop 1 arr = arr
      rw [settle, List.take_append_drop]

theorem bubble_frame_claim_C9_witness :
    ∃ r, bubble_sort [4, 3, 5] 2 = some r ∧ r.length = 3 ∧
      (r.take 2).Perm (([4, 3, 5] : List Int).take 2) ∧
      List.Sorted (· ≤ ·) (r.take 2) ∧
      (∀ k : Nat, 2 ≤ k → r[k]? = ([4, 3, 5] : List Int)[k]?) ∧
      (2 ≤ 1 → r = [4, 3, 5]) :=
  bubble_frame_claim_C9 [4, 3, 5] 2 (by decide)

/-- Claim C10: `swap` called with both arguments referring to the same
in-range location succeeds and leaves the sequence — in particular the
stored value — unchanged. -/
theorem swap_self_claim_C10 : ∀ (l : List Int) (a : Nat), a < l.length →
    swap l a a = some l := by
  intro l a h
  rw [swap_eq l a a h h, set_getElem_self_eq l a h, set_getElem_self_eq l a h]

theorem swap_self_claim_C10_witness : swap [7, 8] 0 0 = some [7, 8] :=
  swap_self_claim_C10 [7, 8] 0 (by decide)
